import Mathlib

/-!
Shallow embedding of `src/stream.rs`: the per-stream reassembly (RecvBuf),
segmentation (SendBuf) and stream-table iteration code of the repository.

Modelling conventions:
* Bytes are `Nat`; a Rust `Vec<u8>` is a `List Nat` (byte values are opaque
  to every operation modelled here).
* Rust `usize` is `Nat`.  The subtractions `self.len -= buf.len()` and
  `out_len -= buf.len()` are the places where unsigned underflow matters
  (Rust panics in debug builds, the builds the crate's tests run under), so
  they are modelled with a checked subtraction returning `none` on
  underflow; a pop that would panic is `none`.  No claim concerns additive
  wraparound at `2 ^ 64`, so additions are plain `Nat` additions.
* `BinaryHeap<RangeBuf>` with the reversed `Ord` (a min-heap keyed on
  `off`) is modelled as a list kept sorted by `off` in ascending order;
  `peek` is the head.  Elements with equal `off` (whose relative heap order
  Rust leaves unspecified) are kept in insertion order.
* `Result<T>` values returned by the Rust functions are always `Ok` except
  for the modelled panics, so infallible operations return their value
  directly and the two `pop`s return `Option`.
-/

namespace Quiche

/-- `RangeBuf`: a byte payload plus the absolute stream offset of its
first byte (`data`, `off` fields of the Rust struct). -/
structure RangeBuf where
  data : List Nat
  off : Nat
  deriving DecidableEq, Repr

/-- `RangeBuf::from(buf, off)`. -/
def RangeBuf.fromBytes (buf : List Nat) (off : Nat) : RangeBuf :=
  { data := buf, off := off }

/-- `RangeBuf::default()`: empty data, offset 0. -/
def RangeBuf.defaultBuf : RangeBuf := { data := [], off := 0 }

/-- `RangeBuf::len()`. -/
def RangeBuf.len (b : RangeBuf) : Nat := b.data.length

/-- Checked `usize` subtraction: `none` models the debug-build panic on
unsigned underflow. -/
def checkedSub (a b : Nat) : Option Nat :=
  if b ≤ a then some (a - b) else none

/-- `RecvBuf`: binary heap of chunks (modelled as an `off`-sorted list,
head = heap minimum), `off` = next expected offset, `len` = the length
bookkeeping counter. -/
structure RecvBuf where
  data : List RangeBuf
  off : Nat
  len : Nat
  deriving DecidableEq, Repr

/-- `RecvBuf::default()`. -/
def RecvBuf.defaultBuf : RecvBuf := { data := [], off := 0, len := 0 }

/-- `BinaryHeap::push` on the min-heap: insert keeping the list sorted by
`off`; an element equal in key to existing ones goes after them (one valid
resolution of the heap's unspecified tie order). -/
def heapInsert (b : RangeBuf) : List RangeBuf → List RangeBuf
  | [] => [b]
  | c :: rest => if b.off < c.off then b :: c :: rest else c :: heapInsert b rest

/-- `RecvBuf::push`: `self.len = max(self.len, buf.off + buf.len());
self.data.push(buf)`.  The Rust function returns `Ok(())`, carried by the
state alone here. -/
def RecvBuf.push (s : RecvBuf) (buf : RangeBuf) : RecvBuf :=
  { data := heapInsert buf s.data
    off := s.off
    len := max s.len (buf.off + buf.data.length) }

/-- `RecvBuf::ready`: peek the heap minimum and compare its offset with
`self.off`. -/
def RecvBuf.ready (s : RecvBuf) : Bool :=
  match s.data with
  | [] => false
  | b :: _ => b.off == s.off

/-- The `while self.ready()` loop of `RecvBuf::pop`, recursing on the heap
contents.  An iteration pops the minimum chunk `b` (head), advances `off`,
decrements `len` (checked: underflow would panic) and appends `b.data` to
the accumulator `out`; the loop stops when the heap is empty or the
minimum's offset differs from `off`. -/
def recvPopLoop : List RangeBuf → Nat → Nat → RangeBuf → Option (RangeBuf × RecvBuf)
  | [], off, len, out => some (out, { data := [], off := off, len := len })
  | b :: rest, off, len, out =>
    if b.off = off then
      match checkedSub len b.data.length with
      | some len' =>
          recvPopLoop rest (off + b.data.length) len'
            { data := out.data ++ b.data, off := out.off }
      | none => none
    else
      some (out, { data := b :: rest, off := off, len := len })

/-- `RecvBuf::pop`: run the loop starting from `RangeBuf::default()` as
accumulator; `none` models a panic. -/
def RecvBuf.pop (s : RecvBuf) : Option (RangeBuf × RecvBuf) :=
  recvPopLoop s.data s.off s.len RangeBuf.defaultBuf

/-- `RecvBuf::len()`. -/
def RecvBuf.length (s : RecvBuf) : Nat := s.len

/-- `SendBuf`: FIFO of chunks (`VecDeque`, head = front), `off` cursor and
`len` byte counter. -/
structure SendBuf where
  data : List RangeBuf
  off : Nat
  len : Nat
  deriving DecidableEq, Repr

/-- `SendBuf::default()`. -/
def SendBuf.defaultBuf : SendBuf := { data := [], off := 0, len := 0 }

/-- `SendBuf::push`: builds `RangeBuf::from(data, self.off)`, adds its
length to `self.len`, pushes it at the back and returns `Ok(self.off)`.
Note the source never advances `self.off` here. -/
def SendBuf.push (s : SendBuf) (d : List Nat) : Nat × SendBuf :=
  (s.off,
    { data := s.data ++ [RangeBuf.fromBytes d s.off]
      off := s.off
      len := s.len + d.length })

/-- `SendBuf::ready`: `self.len() > 0`. -/
def SendBuf.ready (s : SendBuf) : Bool := decide (0 < s.len)

/-- The `while out_len > 0 && self.ready()` loop of `SendBuf::pop`,
recursing on the deque contents.  `self.ready()` is `len > 0` inlined.
Each iteration pops the front chunk, advances `off`, and performs the two
checked subtractions `self.len -= buf.len()` and `out_len -= buf.len()`
(the second is the underflowing one when the chunk exceeds the remaining
budget); `none` models the panic. -/
def sendPopLoop : List RangeBuf → Nat → Nat → Nat → RangeBuf → Option (RangeBuf × SendBuf)
  | [], off, len, _, out => some (out, { data := [], off := off, len := len })
  | b :: rest, off, len, out_len, out =>
    if 0 < out_len ∧ 0 < len then
      match checkedSub len b.data.length, checkedSub out_len b.data.length with
      | some len', some out_len' =>
          sendPopLoop rest (off + b.data.length) len' out_len'
            { data := out.data ++ b.data, off := out.off }
      | _, _ => none
    else
      some (out, { data := b :: rest, off := off, len := len })

/-- `SendBuf::pop(max_len)`. -/
def SendBuf.pop (s : SendBuf) (max_len : Nat) : Option (RangeBuf × SendBuf) :=
  sendPopLoop s.data s.off s.len max_len RangeBuf.defaultBuf

/-- `Stream`: one receive buffer and one send buffer. -/
structure Stream where
  recv : RecvBuf
  send : SendBuf
  deriving DecidableEq, Repr

/-- `Stream::new()` / `Stream::default()`. -/
def Stream.new : Stream := { recv := RecvBuf.defaultBuf, send := SendBuf.defaultBuf }

/-- `Stream::push_recv`. -/
def Stream.push_recv (st : Stream) (b : RangeBuf) : Stream :=
  { st with recv := st.recv.push b }

/-- `Stream::pop_recv`. -/
def Stream.pop_recv (st : Stream) : Option (RangeBuf × Stream) :=
  Option.map (fun r => (r.1, { st with recv := r.2 })) st.recv.pop

/-- `Stream::push_send`. -/
def Stream.push_send (st : Stream) (d : List Nat) : Nat × Stream :=
  ((st.send.push d).1, { st with send := (st.send.push d).2 })

/-- `Stream::pop_send`. -/
def Stream.pop_send (st : Stream) (max_len : Nat) : Option (RangeBuf × Stream) :=
  Option.map (fun r => (r.1, { st with send := r.2 })) (st.send.pop max_len)

/-- `Stream::can_read`. -/
def Stream.can_read (st : Stream) : Bool := st.recv.ready

/-- `Stream::can_write`. -/
def Stream.can_write (st : Stream) : Bool := st.send.ready

/-- `StreamIterator::next`: scan the remaining hash-map entries, skipping
streams that are not readable; yields the next readable id and the rest of
the iterator. -/
def streamIterNext : List (Nat × Stream) → Option (Nat × List (Nat × Stream))
  | [] => none
  | (k, s) :: rest => if s.can_read then some (k, rest) else streamIterNext rest

theorem streamIterNext_length : ∀ {l : List (Nat × Stream)} {k : Nat}
    {r : List (Nat × Stream)}, streamIterNext l = some (k, r) → r.length < l.length := by
  intro l
  induction l with
  | nil => intro k r h; simp [streamIterNext] at h
  | cons p rest ih =>
    intro k r h
    by_cases hc : p.2.can_read
    · simp [streamIterNext, hc] at h
      simp [h.2.symm]
    · simp [streamIterNext, hc] at h
      exact Nat.lt_trans (ih h) (by simp)

/-- Driving `StreamIterator` to exhaustion: the list of ids it yields. -/
def collectIds (l : List (Nat × Stream)) : List Nat :=
  match h : streamIterNext l with
  | none => []
  | some (k, rest) => k :: collectIds rest
termination_by l.length
decreasing_by exact streamIterNext_length h

/-! Spec-side vocabulary (following the specification's words, for the
refinement statements): chunk end offsets, coverage of a stream position
by a set of chunks, the byte stored at a position, and the length of the
maximal contiguous run starting at the base offset. -/

/-- End offset of a chunk: `offset + length` (spec section 3). -/
def specEnd (c : RangeBuf) : Nat := c.off + c.data.length

/-- Highest end offset across a collection of chunks. -/
def specMaxEnd (cs : List RangeBuf) : Nat :=
  cs.foldr (fun c a => max (specEnd c) a) 0

/-- Position `o` is covered by some chunk of `cs`. -/
def coversB (cs : List RangeBuf) (o : Nat) : Bool :=
  cs.any (fun c => decide (c.off ≤ o ∧ o < specEnd c))

/-- The byte a collection of chunks stores at absolute position `o`
(first covering chunk; unique when the chunks are pairwise disjoint). -/
def specByteAt : List RangeBuf → Nat → Option Nat
  | [], _ => none
  | c :: rest, o =>
    if c.off ≤ o ∧ o < specEnd c then c.data[o - c.off]? else specByteAt rest o

/-- Fuel-bounded count of consecutive positions from `o` satisfying `p`. -/
def specRunFuel (p : Nat → Bool) : Nat → Nat → Nat
  | _, 0 => 0
  | o, fuel + 1 => if p o then specRunFuel p (o + 1) fuel + 1 else 0

/-- Length of the maximal contiguous prefix starting at offset 0: the
largest `run` with every position of `[0, run)` covered.  The fuel
`specMaxEnd cs + 1` is enough because no position at or beyond
`specMaxEnd cs` is covered. -/
def specRun (cs : List RangeBuf) : Nat :=
  specRunFuel (coversB cs) 0 (specMaxEnd cs + 1)

/-- Two chunks occupy disjoint (non-overlapping) ranges. -/
def sep (a b : RangeBuf) : Prop := specEnd a ≤ b.off ∨ specEnd b ≤ a.off

instance (a b : RangeBuf) : Decidable (sep a b) := by
  unfold sep; infer_instance

/-- Ordering of chunks by offset (the heap order). -/
def offLE (a b : RangeBuf) : Prop := a.off ≤ b.off

instance (a b : RangeBuf) : Decidable (offLE a b) := by
  unfold offLE; infer_instance

/-- The run of chunks the receive pop loop drains: the longest prefix of
the (offset-sorted) heap contents whose offsets chain exactly from `o`. -/
def chainTake : List RangeBuf → Nat → List RangeBuf
  | [], _ => []
  | b :: rest, o =>
    if b.off = o then b :: chainTake rest (o + b.data.length) else []

/-- Bytes of the drained run, in heap order. -/
def chainFlat (data : List RangeBuf) (o : Nat) : List Nat :=
  (chainTake data o).foldr (fun c a => c.data ++ a) []

/-- An operation on a receive buffer, for iterating arbitrary futures. -/
inductive RecvOp where
  | push : RangeBuf → RecvOp
  | pop : RecvOp
  deriving DecidableEq, Repr

/-- Apply one operation to a receive buffer (a panicking pop, which never
occurs in the states considered, leaves the state unchanged). -/
def recvStep (s : RecvBuf) : RecvOp → RecvBuf
  | RecvOp.push b => s.push b
  | RecvOp.pop =>
    match s.pop with
    | some r => r.2
    | none => s

/-- Apply a sequence of operations to a receive buffer. -/
def recvRun (s : RecvBuf) (ops : List RecvOp) : RecvBuf :=
  ops.foldl recvStep s

/-! Helper lemmas about the heap model and the two pop loops. -/

theorem heapInsert_perm (b : RangeBuf) :
    ∀ l : List RangeBuf, (heapInsert b l).Perm (b :: l) := by
  intro l
  induction l with
  | nil => simp [heapInsert]
  | cons c rest ih =>
    by_cases h : b.off < c.off
    · simp [heapInsert, h]
    · simp only [heapInsert, if_neg h]
      exact (ih.cons c).trans (List.Perm.swap b c rest)

theorem mem_heapInsert {c b : RangeBuf} {l : List RangeBuf} :
    c ∈ heapInsert b l ↔ c = b ∨ c ∈ l := by
  rw [(heapInsert_perm b l).mem_iff]
  simp

theorem heapInsert_sorted {b : RangeBuf} {l : List RangeBuf}
    (h : l.Pairwise offLE) : (heapInsert b l).Pairwise offLE := by
  induction l with
  | nil => simp [heapInsert, List.Pairwise.nil]
  | cons c rest ih =>
    rcases List.pairwise_cons.mp h with ⟨hc, hrest⟩
    by_cases hb : b.off < c.off
    · simp only [heapInsert, if_pos hb]
      refine List.pairwise_cons.mpr ⟨?_, h⟩
      intro d hd
      rcases List.mem_cons.mp hd with rfl | hd
      · exact Nat.le_of_lt hb
      · exact Nat.le_trans (Nat.le_of_lt hb) (hc d hd)
    · simp only [heapInsert, if_neg hb]
      refine List.pairwise_cons.mpr ⟨?_, ih hrest⟩
      intro d hd
      rcases mem_heapInsert.mp hd with rfl | hd
      · exact Nat.le_of_not_lt hb
      · exact hc d hd

theorem recv_foldl_off (cs : List RangeBuf) :
    ∀ s : RecvBuf, (List.foldl RecvBuf.push s cs).off = s.off := by
  induction cs with
  | nil => intro s; rfl
  | cons c rest ih => intro s; simpa using ih (s.push c)

theorem recv_foldl_len (cs : List RangeBuf) :
    ∀ s : RecvBuf, (List.foldl RecvBuf.push s cs).len = max s.len (specMaxEnd cs) := by
  induction cs with
  | nil => intro s; simp [specMaxEnd]
  | cons c rest ih =>
    intro s
    rw [List.foldl_cons, ih (s.push c)]
    exact Nat.max_assoc s.len (specEnd c) (specMaxEnd rest)

theorem recv_foldl_data_perm (cs : List RangeBuf) :
    ∀ s : RecvBuf, (List.foldl RecvBuf.push s cs).data.Perm (cs ++ s.data) := by
  induction cs with
  | nil => intro s; simp
  | cons c rest ih =>
    intro s
    refine (ih (s.push c)).trans ?_
    refine (List.Perm.append_left rest (heapInsert_perm c s.data)).trans ?_
    exact List.perm_middle

theorem recv_foldl_sorted (cs : List RangeBuf) :
    ∀ s : RecvBuf, s.data.Pairwise offLE →
      (List.foldl RecvBuf.push s cs).data.Pairwise offLE := by
  induction cs with
  | nil => intro s h; exact h
  | cons c rest ih =>
    intro s h
    exact ih (s.push c) (heapInsert_sorted h)

theorem recv_foldl_end_le (cs : List RangeBuf) :
    ∀ s : RecvBuf, (∀ c ∈ s.data, specEnd c ≤ s.len) →
      ∀ c ∈ (List.foldl RecvBuf.push s cs).data,
        specEnd c ≤ (List.foldl RecvBuf.push s cs).len := by
  induction cs with
  | nil => intro s h; exact h
  | cons c rest ih =>
    intro s h
    refine ih (s.push c) ?_
    intro d hd
    rcases mem_heapInsert.mp hd with rfl | hd
    · exact Nat.le_max_right _ _
    · exact Nat.le_trans (h d hd) (Nat.le_max_left _ _)

theorem recvPop_of_not_ready {s : RecvBuf} (h : s.ready = false) :
    s.pop = some (RangeBuf.defaultBuf, s) := by
  rcases s with ⟨data, off, len⟩
  cases data with
  | nil => rfl
  | cons b rest =>
    have hb : ¬ b.off = off := by
      simpa [RecvBuf.ready] using h
    simp [RecvBuf.pop, recvPopLoop, hb]

theorem sendPop_of_len_zero {s : SendBuf} (h : s.len = 0) (max_len : Nat) :
    s.pop max_len = some (RangeBuf.defaultBuf, s) := by
  rcases s with ⟨data, off, len⟩
  cases data with
  | nil => rfl
  | cons b rest =>
    simp only at h
    subst h
    simp [SendBuf.pop, sendPopLoop]

theorem recvPopLoop_off_eq :
    ∀ (data : List RangeBuf) (o len : Nat) (out r : RangeBuf) (s' : RecvBuf),
      recvPopLoop data o len out = some (r, s') → r.off = out.off := by
  intro data
  induction data with
  | nil =>
    intro o len out r s' h
    simp [recvPopLoop] at h
    simp [h.1.symm]
  | cons b rest ih =>
    intro o len out r s' h
    by_cases hb : b.off = o
    · cases hc : checkedSub len b.data.length with
      | none => simp [recvPopLoop, if_pos hb, hc] at h
      | some len' =>
        simp only [recvPopLoop, if_pos hb, hc] at h
        exact ih (o + b.data.length) len'
          { data := out.data ++ b.data, off := out.off } r s' h
    · simp only [recvPopLoop, if_neg hb] at h
      have : out = r := by
        have := h
        simp at this
        exact this.1
      simp [this]

theorem sendPopLoop_off_eq :
    ∀ (data : List RangeBuf) (o len out_len : Nat) (out r : RangeBuf) (s' : SendBuf),
      sendPopLoop data o len out_len out = some (r, s') → r.off = out.off := by
  intro data
  induction data with
  | nil =>
    intro o len out_len out r s' h
    simp [sendPopLoop] at h
    simp [h.1.symm]
  | cons b rest ih =>
    intro o len out_len out r s' h
    by_cases hc : 0 < out_len ∧ 0 < len
    · cases h1 : checkedSub len b.data.length with
      | none => simp [sendPopLoop, if_pos hc, h1] at h
      | some len' =>
        cases h2 : checkedSub out_len b.data.length with
        | none => simp [sendPopLoop, if_pos hc, h1, h2] at h
        | some out_len' =>
          simp only [sendPopLoop, if_pos hc, h1, h2] at h
          exact ih (o + b.data.length) len' out_len'
            { data := out.data ++ b.data, off := out.off } r s' h
    · simp only [sendPopLoop, if_neg hc] at h
      have : out = r := by
        have := h
        simp at this
        exact this.1
      simp [this]

theorem chainFlat_nil (o : Nat) : chainFlat [] o = [] := rfl

theorem chainFlat_cons_pos {b : RangeBuf} {rest : List RangeBuf} {o : Nat}
    (h : b.off = o) :
    chainFlat (b :: rest) o = b.data ++ chainFlat rest (o + b.data.length) := by
  simp [chainFlat, chainTake, h]

theorem chainFlat_cons_neg {b : RangeBuf} {rest : List RangeBuf} {o : Nat}
    (h : ¬ b.off = o) : chainFlat (b :: rest) o = [] := by
  simp [chainFlat, chainTake, h]

/-- When every pending chunk ends no later than `o + len` (an invariant of
all states the API can reach), the receive pop loop never panics: it
returns the accumulator extended with the bytes of the chained prefix. -/
theorem recvPopLoop_success :
    ∀ (data : List RangeBuf) (o len : Nat) (out : RangeBuf),
      (∀ c ∈ data, specEnd c ≤ o + len) →
      ∃ s', recvPopLoop data o len out =
        some ({ data := out.data ++ chainFlat data o, off := out.off }, s') := by
  intro data
  induction data with
  | nil =>
    intro o len out _
    refine ⟨{ data := [], off := o, len := len }, ?_⟩
    simp [recvPopLoop, chainFlat_nil]
  | cons b rest ih =>
    intro o len out h
    by_cases hb : b.off = o
    · have hend : specEnd b ≤ o + len := h b (List.mem_cons_self b rest)
      have hble : b.data.length ≤ len := by
        have : o + b.data.length ≤ o + len := by
          have : b.off + b.data.length ≤ o + len := hend
          omega
        omega
      have hsub : checkedSub len b.data.length = some (len - b.data.length) := by
        simp [checkedSub, hble]
      have hrest : ∀ c ∈ rest, specEnd c ≤ (o + b.data.length) + (len - b.data.length) := by
        intro c hc
        have := h c (List.mem_cons_of_mem b hc)
        omega
      obtain ⟨s', hs⟩ := ih (o + b.data.length) (len - b.data.length)
        { data := out.data ++ b.data, off := out.off } hrest
      refine ⟨s', ?_⟩
      simp only [recvPopLoop, if_pos hb, hsub]
      rw [hs, chainFlat_cons_pos hb]
      simp
    · refine ⟨{ data := b :: rest, off := o, len := len }, ?_⟩
      simp only [recvPopLoop, if_neg hb]
      rw [chainFlat_cons_neg hb]
      simp

theorem ready_of_data_nil {s : RecvBuf} (hd : s.data = []) : s.ready = false := by
  rcases s with ⟨d, o, l⟩
  simp only at hd
  subst hd
  rfl

theorem ready_of_data_cons {s : RecvBuf} {b : RangeBuf} {rest : List RangeBuf}
    (hd : s.data = b :: rest) : s.ready = (b.off == s.off) := by
  rcases s with ⟨d, o, l⟩
  simp only at hd
  subst hd
  rfl

/-- A receive buffer whose heap minimum sits strictly below `next_offset`
is never ready. -/
theorem stale_not_ready {s : RecvBuf} {c : RangeBuf}
    (hsort : s.data.Pairwise offLE) (hc : c ∈ s.data) (hlt : c.off < s.off) :
    s.ready = false := by
  rcases s with ⟨data, soff, slen⟩
  cases data with
  | nil => simp at hc
  | cons b rest =>
    have hb : b.off ≤ c.off := by
      rcases List.mem_cons.mp hc with rfl | hmem
      · exact Nat.le_refl _
      · exact (List.pairwise_cons.mp hsort).1 c hmem
    simp only at hlt
    have hbo : ¬ b.off = soff := by omega
    simp [RecvBuf.ready, hbo]

theorem recvRun_cons (s : RecvBuf) (op : RecvOp) (ops : List RecvOp) :
    recvRun s (op :: ops) = recvRun (recvStep s op) ops := rfl

/-- Invariant carried through arbitrary futures of a receive buffer that
holds a stale chunk: the heap stays sorted, the stale chunk stays in it,
and `next_offset` never moves. -/
theorem recvRun_stale_inv (c : RangeBuf) :
    ∀ (ops : List RecvOp) (s : RecvBuf), s.data.Pairwise offLE → c ∈ s.data →
      c.off < s.off →
      (recvRun s ops).data.Pairwise offLE ∧ c ∈ (recvRun s ops).data ∧
        (recvRun s ops).off = s.off := by
  intro ops
  induction ops with
  | nil => intro s h1 h2 _; exact ⟨h1, h2, rfl⟩
  | cons op rest ih =>
    intro s h1 h2 h3
    cases op with
    | push b =>
      rw [recvRun_cons]
      have hstep : recvStep s (RecvOp.push b) = s.push b := rfl
      rw [hstep]
      have h1' : (s.push b).data.Pairwise offLE := heapInsert_sorted h1
      have h2' : c ∈ (s.push b).data := mem_heapInsert.mpr (Or.inr h2)
      have h3' : c.off < (s.push b).off := h3
      obtain ⟨g1, g2, g3⟩ := ih (s.push b) h1' h2' h3'
      exact ⟨g1, g2, g3⟩
    | pop =>
      rw [recvRun_cons]
      have hrdy : s.ready = false := stale_not_ready h1 h2 h3
      have hstep : recvStep s RecvOp.pop = s := by
        simp [recvStep, recvPop_of_not_ready hrdy]
      rw [hstep]
      exact ih s h1 h2 h3

theorem sep_symmetric : Symmetric sep := by
  intro a b h
  exact Or.symm h

theorem specEnd_le_maxEnd {c : RangeBuf} {cs : List RangeBuf} (h : c ∈ cs) :
    specEnd c ≤ specMaxEnd cs := by
  induction cs with
  | nil => cases h
  | cons d rest ih =>
    rcases List.mem_cons.mp h with rfl | hm
    · exact Nat.le_max_left _ _
    · exact Nat.le_trans (ih hm) (Nat.le_max_right _ _)

theorem coversB_true_iff {cs : List RangeBuf} {o : Nat} :
    coversB cs o = true ↔ ∃ c ∈ cs, c.off ≤ o ∧ o < specEnd c := by
  simp [coversB, List.any_eq_true]

theorem lt_maxEnd_of_covers {cs : List RangeBuf} {o : Nat}
    (h : coversB cs o = true) : o < specMaxEnd cs := by
  obtain ⟨c, hc, _, hlt⟩ := coversB_true_iff.mp h
  exact Nat.lt_of_lt_of_le hlt (specEnd_le_maxEnd hc)

theorem coversB_eq_of_perm {l l' : List RangeBuf} {o : Nat} (h : l.Perm l') :
    coversB l o = coversB l' o := by
  rw [Bool.eq_iff_iff, coversB_true_iff, coversB_true_iff]
  constructor
  · rintro ⟨c, hc, hx⟩
    exact ⟨c, h.mem_iff.mp hc, hx⟩
  · rintro ⟨c, hc, hx⟩
    exact ⟨c, h.mem_iff.mpr hc, hx⟩

/-- For pairwise-disjoint chunks, the byte at a covered position is read
off the (unique) covering chunk, wherever it sits in the list. -/
theorem specByteAt_of_mem {cs : List RangeBuf} {c : RangeBuf} {o : Nat}
    (hsep : cs.Pairwise sep) (hc : c ∈ cs) (h1 : c.off ≤ o)
    (h2 : o < specEnd c) :
    specByteAt cs o = c.data[o - c.off]? := by
  induction cs with
  | nil => cases hc
  | cons d rest ih =>
    rcases List.pairwise_cons.mp hsep with ⟨hd, hrest⟩
    rcases List.mem_cons.mp hc with rfl | hm
    · simp [specByteAt, h1, h2]
    · have hdnot : ¬ (d.off ≤ o ∧ o < specEnd d) := by
        rintro ⟨hd1, hd2⟩
        rcases hd c hm with hcase | hcase
        · simp only [specEnd] at hd2 hcase
          simp only [specEnd] at h2
          omega
        · simp only [specEnd] at hcase h2
          omega
      simp only [specByteAt, if_neg hdnot]
      exact ih hrest hm

theorem specByteAt_none_iff {cs : List RangeBuf} {o : Nat} :
    specByteAt cs o = none ↔ coversB cs o = false := by
  induction cs with
  | nil => simp [specByteAt, coversB]
  | cons d rest ih =>
    by_cases hd : d.off ≤ o ∧ o < specEnd d
    · have hidx : o - d.off < d.data.length := by
        have := hd.1
        have := hd.2
        simp only [specEnd] at *
        omega
      constructor
      · intro h
        exfalso
        simp only [specByteAt, if_pos hd] at h
        rw [List.getElem?_eq_none_iff] at h
        omega
      · intro h
        exfalso
        have : coversB (d :: rest) o = true :=
          coversB_true_iff.mpr ⟨d, List.mem_cons_self d rest, hd⟩
        rw [this] at h
        cases h
    · simp only [specByteAt, if_neg hd]
      rw [ih]
      have hcov : coversB (d :: rest) o = coversB rest o := by
        simp [coversB, hd]
      rw [hcov]

theorem specByteAt_eq_of_perm {l l' : List RangeBuf} {o : Nat}
    (hsep : l.Pairwise sep) (hp : l.Perm l') :
    specByteAt l o = specByteAt l' o := by
  have hsep' : l'.Pairwise sep :=
    (hp.pairwise_iff (fun {x y} h => sep_symmetric h)).mp hsep
  cases hb : coversB l o with
  | false =>
    have hb' : coversB l' o = false := by
      rw [← coversB_eq_of_perm hp]
      exact hb
    rw [specByteAt_none_iff.mpr hb, specByteAt_none_iff.mpr hb']
  | true =>
    obtain ⟨c, hc, h1, h2⟩ := coversB_true_iff.mp hb
    rw [specByteAt_of_mem hsep hc h1 h2,
      specByteAt_of_mem hsep' (hp.mem_iff.mp hc) h1 h2]

theorem specRunFuel_eq (p : Nat → Bool) :
    ∀ (fuel o L : Nat), L < fuel → (∀ i, i < L → p (o + i) = true) →
      p (o + L) = false → specRunFuel p o fuel = L := by
  intro fuel
  induction fuel with
  | zero => intro o L hL _ _; exact absurd hL (Nat.not_lt_zero L)
  | succ n ih =>
    intro o L hL hall hend
    by_cases hp : p o = true
    · have hL0 : L ≠ 0 := by
        intro h0
        rw [h0] at hend
        simp at hend
        rw [hend] at hp
        cases hp
      obtain ⟨L', rfl⟩ : ∃ L', L = L' + 1 := ⟨L - 1, by omega⟩
      simp only [specRunFuel, if_pos hp]
      have h1 : ∀ i, i < L' → p (o + 1 + i) = true := by
        intro i hi
        have h := hall (i + 1) (by omega)
        rw [show o + (i + 1) = o + 1 + i by omega] at h
        exact h
      have h2 : p (o + 1 + L') = false := by
        rw [show o + 1 + L' = o + (L' + 1) by omega]
        exact hend
      rw [ih (o + 1) L' (by omega) h1 h2]
    · have hL0 : L = 0 := by
        by_contra h0
        have h := hall 0 (by omega)
        simp at h
        exact hp h
      subst hL0
      simp only [specRunFuel]
      rw [if_neg hp]

/-- The run the receive pop loop drains matches the specification: its
i-th byte is the byte stored at position o + i, every drained position is
covered, and the first position past the run is not covered.  Hypotheses:
the heap list is sorted by offset, its chunks are pairwise disjoint and
non-empty, and every chunk offset is at or past the base o. -/
theorem chain_matches_spec :
    ∀ (data : List RangeBuf) (o : Nat),
      data.Pairwise offLE → data.Pairwise sep →
      (∀ c ∈ data, c.data ≠ []) → (∀ c ∈ data, o ≤ c.off) →
      (∀ i, i < (chainFlat data o).length →
        (chainFlat data o)[i]? = specByteAt data (o + i)) ∧
      (∀ i, i < (chainFlat data o).length → coversB data (o + i) = true) ∧
      coversB data (o + (chainFlat data o).length) = false := by
  intro data
  induction data with
  | nil =>
    intro o _ _ _ _
    refine ⟨?_, ?_, ?_⟩ <;> simp [chainFlat_nil, coversB]
  | cons b rest ih =>
    intro o hsort hsep hne hlb
    by_cases hb : b.off = o
    · have hsort' := (List.pairwise_cons.mp hsort).2
      have hsepb := (List.pairwise_cons.mp hsep).1
      have hsep' := (List.pairwise_cons.mp hsep).2
      have hne' : ∀ c ∈ rest, c.data ≠ [] :=
        fun c hc => hne c (List.mem_cons_of_mem b hc)
      have hlb' : ∀ c ∈ rest, o + b.data.length ≤ c.off := by
        intro c hc
        rcases hsepb c hc with hcase | hcase
        · simp only [specEnd] at hcase
          omega
        · exfalso
          have h1 : o ≤ c.off := hlb c (List.mem_cons_of_mem b hc)
          simp only [specEnd] at hcase
          have h3 : c.data.length = 0 := by omega
          exact hne' c hc (List.eq_nil_of_length_eq_zero h3)
      obtain ⟨ih1, ih2, ih3⟩ := ih (o + b.data.length) hsort' hsep' hne' hlb'
      have hflat : chainFlat (b :: rest) o =
          b.data ++ chainFlat rest (o + b.data.length) := chainFlat_cons_pos hb
      have hlen : (chainFlat (b :: rest) o).length =
          b.data.length + (chainFlat rest (o + b.data.length)).length := by
        rw [hflat, List.length_append]
      refine ⟨?_, ?_, ?_⟩
      · intro i hi
        rw [hlen] at hi
        by_cases hib : i < b.data.length
        · rw [hflat, List.getElem?_append_left hib]
          have hcond : b.off ≤ o + i ∧ o + i < specEnd b := by
            simp only [specEnd]
            omega
          simp only [specByteAt, if_pos hcond]
          have hidx : o + i - b.off = i := by omega
          rw [hidx]
        · have hj : i - b.data.length <
              (chainFlat rest (o + b.data.length)).length := by omega
          rw [hflat, List.getElem?_append_right (Nat.le_of_not_lt hib)]
          have hcond : ¬ (b.off ≤ o + i ∧ o + i < specEnd b) := by
            simp only [specEnd]
            omega
          simp only [specByteAt, if_neg hcond]
          have hres := ih1 (i - b.data.length) hj
          rw [show o + b.data.length + (i - b.data.length) = o + i by omega] at hres
          exact hres
      · intro i hi
        rw [hlen] at hi
        by_cases hib : i < b.data.length
        · apply coversB_true_iff.mpr
          refine ⟨b, List.mem_cons_self b rest, ?_, ?_⟩
          · omega
          · simp only [specEnd]
            omega
        · have hj : i - b.data.length <
              (chainFlat rest (o + b.data.length)).length := by omega
          have hres := ih2 (i - b.data.length) hj
          rw [show o + b.data.length + (i - b.data.length) = o + i by omega] at hres
          apply coversB_true_iff.mpr
          obtain ⟨c, hc, hx⟩ := coversB_true_iff.mp hres
          exact ⟨c, List.mem_cons_of_mem b hc, hx⟩
      · rw [hlen,
          show o + (b.data.length + (chainFlat rest (o + b.data.length)).length) =
            (o + b.data.length) + (chainFlat rest (o + b.data.length)).length
            by omega]
        show (decide (b.off ≤ _ ∧ _ < specEnd b) || coversB rest _) = false
        rw [ih3, Bool.or_false, decide_eq_false_iff_not]
        rintro ⟨_, h2⟩
        simp only [specEnd] at h2
        omega
    · have hflat0 : chainFlat (b :: rest) o = [] := chainFlat_cons_neg hb
      refine ⟨?_, ?_, ?_⟩
      · intro i hi
        rw [hflat0] at hi
        simp at hi
      · intro i hi
        rw [hflat0] at hi
        simp at hi
      · rw [hflat0]
        simp only [List.length_nil, Nat.add_zero]
        cases hcov : coversB (b :: rest) o with
        | false => rfl
        | true =>
          exfalso
          obtain ⟨c, hc, h1, _⟩ := coversB_true_iff.mp hcov
          have hcoff : o ≤ c.off := hlb c hc
          rcases List.mem_cons.mp hc with rfl | hm
          · exact hb (by omega)
          · have hbc : b.off ≤ c.off := (List.pairwise_cons.mp hsort).1 c hm
            have hob : o ≤ b.off := hlb b (List.mem_cons_self b rest)
            omega

theorem collectIds_nil : collectIds [] = [] := by
  rw [collectIds]
  split
  · rfl
  · next k rest h => simp [streamIterNext] at h

theorem collectIds_cons (k : Nat) (s : Stream) (rest : List (Nat × Stream)) :
    collectIds ((k, s) :: rest) =
      if s.can_read then k :: collectIds rest else collectIds rest := by
  by_cases hc : s.can_read
  · rw [collectIds, if_pos hc]
    split
    · next h => rw [streamIterNext, if_pos hc] at h; cases h
    · next k1 rest1 h =>
      rw [streamIterNext, if_pos hc] at h
      simp only [Option.some.injEq, Prod.mk.injEq] at h
      obtain ⟨h1, h2⟩ := h
      subst h1
      subst h2
      rfl
  · rw [collectIds, if_neg hc]
    split
    · next h =>
      rw [streamIterNext, if_neg hc] at h
      rw [collectIds]
      split
      · rfl
      · next k2 rest2 h2 => rw [h] at h2; cases h2
    · next k1 rest1 h =>
      rw [streamIterNext, if_neg hc] at h
      conv_rhs => rw [collectIds]
      split
      · next h2 => rw [h] at h2; cases h2
      · next k2 rest2 h2 =>
        rw [h] at h2
        simp only [Option.some.injEq, Prod.mk.injEq] at h2
        obtain ⟨h1, h3⟩ := h2
        subst h1
        subst h3
        rfl

/-- Exhausting the readable-stream iterator collects exactly the ids of
the entries whose stream is readable, in entry order. -/
theorem collectIds_eq_filter :
    ∀ l : List (Nat × Stream),
      collectIds l = (l.filter (fun p => p.2.can_read)).map Prod.fst := by
  intro l
  induction l with
  | nil => simp [collectIds_nil]
  | cons p rest ih =>
    rcases p with ⟨k, s⟩
    rw [collectIds_cons]
    by_cases hc : s.can_read
    · simp [List.filter_cons, hc, ih]
    · simp [List.filter_cons, hc, ih]

/-! Claim theorems. -/

/-- Claim C1, evaluated at the failing input: after pushing a 9-byte chunk
and a 10-byte chunk, pop 12 does not split the front chunk when its length
exceeds the remaining budget; the budget subtraction 3 - 10 underflows and
the pop panics (modelled as none) instead of returning 12 bytes and
pushing a 7-byte remainder back. -/
theorem pop_send_split_claim_fails :
    ((SendBuf.defaultBuf.push [0, 1, 2, 3, 4, 5, 6, 7, 8]).2.push
        [10, 11, 12, 13, 14, 15, 16, 17, 18, 19]).2.pop 12 = none := by
  decide

/-- Claim C2, evaluated at a minimal failing input: pushing a single
2-byte chunk and calling pop 1 makes the remaining-budget subtraction
1 - 2 underflow, so the pop panics (none) instead of completing. -/
theorem pop_send_underflow_minimal :
    ((SendBuf.defaultBuf.push [1, 2]).2.pop 1) = none := by
  decide

/-- Claim C3, evaluated at the failing input: two consecutive pushes with
no intervening pop both return offset 0 because push never advances the
cursor; the second returned offset is not the first plus the first chunk's
length, and the two pending chunks carry equal (not strictly increasing)
offsets. -/
theorem push_send_offset_never_advances :
    (SendBuf.defaultBuf.push [7]).1 = 0 ∧
    ((SendBuf.defaultBuf.push [7]).2.push [8]).1 = 0 ∧
    ((SendBuf.defaultBuf.push [7]).2.push [8]).1 ≠
      (SendBuf.defaultBuf.push [7]).1 + ([7] : List Nat).length ∧
    (((SendBuf.defaultBuf.push [7]).2.push [8]).2.data.map RangeBuf.off) = [0, 0] := by
  decide

/-- Claim C4, counterexample: deliver the chunk at offsets 0..5, then push
a chunk at offsets 5..10.  The code records len() = 10 (the absolute end
offset), while the claim predicts the extent relative to next_offset,
namely 10 - 5 = 5. -/
theorem recv_len_after_pop_push_absolute :
    (RecvBuf.defaultBuf.push ⟨[0, 1, 2, 3, 4], 0⟩).pop =
      some (⟨[0, 1, 2, 3, 4], 0⟩, ⟨[], 5, 0⟩) ∧
    ((⟨[], 5, 0⟩ : RecvBuf).push ⟨[5, 6, 7, 8, 9], 5⟩).off = 5 ∧
    ((⟨[], 5, 0⟩ : RecvBuf).push ⟨[5, 6, 7, 8, 9], 5⟩).len = 10 ∧
    specMaxEnd ((⟨[], 5, 0⟩ : RecvBuf).push ⟨[5, 6, 7, 8, 9], 5⟩).data -
        ((⟨[], 5, 0⟩ : RecvBuf).push ⟨[5, 6, 7, 8, 9], 5⟩).off = 5 ∧
    ((⟨[], 5, 0⟩ : RecvBuf).push ⟨[5, 6, 7, 8, 9], 5⟩).len ≠
      specMaxEnd ((⟨[], 5, 0⟩ : RecvBuf).push ⟨[5, 6, 7, 8, 9], 5⟩).data -
        ((⟨[], 5, 0⟩ : RecvBuf).push ⟨[5, 6, 7, 8, 9], 5⟩).off := by
  decide

/-- Claim C4, amended: for any sequence of pushes into a fresh buffer
(next_offset still 0, no pops), len() equals the highest end offset
(offset + length) across all pushed chunks, so repeated pushes of the same
region do not double-count; the extent the code tracks is this absolute
end offset, not the span beyond an advanced next_offset. -/
theorem recv_len_push_only_eq_maxEnd (cs : List RangeBuf) :
    (List.foldl RecvBuf.push RecvBuf.defaultBuf cs).len = specMaxEnd cs := by
  rw [recv_foldl_len cs RecvBuf.defaultBuf]
  exact Nat.max_eq_right (Nat.zero_le _)

/-- Claim C9: when nothing is ready - on the receive side the heap is
empty or its minimum offset differs from next_offset, on the send side the
unsent length counter is 0 - both pops return a successful empty result
(the default RangeBuf) and leave the buffer unchanged. -/
theorem pop_nothing_ready_empty_identity :
    (∀ s : RecvBuf, s.ready = false → s.pop = some (RangeBuf.defaultBuf, s)) ∧
    (∀ (s : SendBuf) (max_len : Nat), s.len = 0 →
      s.pop max_len = some (RangeBuf.defaultBuf, s)) :=
  ⟨fun _ h => recvPop_of_not_ready h, fun _ max_len h => sendPop_of_len_zero h max_len⟩

/-- Witness for C9 at concrete non-ready states: a receive buffer whose
minimum offset 3 differs from next_offset 0, and a send buffer with a
zero unsent-length counter. -/
theorem pop_nothing_ready_empty_identity_witness :
    ((⟨[⟨[1], 3⟩], 0, 5⟩ : RecvBuf).ready = false ∧
      (⟨[⟨[1], 3⟩], 0, 5⟩ : RecvBuf).pop =
        some (RangeBuf.defaultBuf, ⟨[⟨[1], 3⟩], 0, 5⟩)) ∧
    ((⟨[], 4, 0⟩ : SendBuf).len = 0 ∧
      (⟨[], 4, 0⟩ : SendBuf).pop 7 = some (RangeBuf.defaultBuf, ⟨[], 4, 0⟩)) :=
  ⟨⟨by decide, pop_nothing_ready_empty_identity.1 _ (by decide)⟩,
    ⟨by decide, pop_nothing_ready_empty_identity.2 _ 7 (by decide)⟩⟩

/-- Claim C10: every successful pop_recv and pop_send returns a RangeBuf
whose off() is 0, however far next_offset or the send cursor has advanced:
the accumulator starts from RangeBuf::default() and its offset field is
never written. -/
theorem pop_results_have_zero_off :
    (∀ (st : Stream) (out : RangeBuf) (st' : Stream),
      st.pop_recv = some (out, st') → out.off = 0) ∧
    (∀ (st : Stream) (max_len : Nat) (out : RangeBuf) (st' : Stream),
      st.pop_send max_len = some (out, st') → out.off = 0) := by
  constructor
  · intro st out st' h
    simp only [Stream.pop_recv, Option.map_eq_some'] at h
    rcases h with ⟨r, hr, heq⟩
    have : r.1 = out := congrArg Prod.fst heq
    rw [← this]
    exact recvPopLoop_off_eq _ _ _ _ _ _ hr
  · intro st max_len out st' h
    simp only [Stream.pop_send, Option.map_eq_some'] at h
    rcases h with ⟨r, hr, heq⟩
    have : r.1 = out := congrArg Prod.fst heq
    rw [← this]
    exact sendPopLoop_off_eq _ _ _ _ _ _ _ hr

/-- Witness for C10: concrete pops on both sides, after the receive side
has advanced next_offset to 1 and the send side has buffered a chunk; both
returned buffers have offset 0. -/
theorem pop_results_have_zero_off_witness :
    (Stream.new.push_recv ⟨[5], 0⟩).pop_recv =
      some (⟨[5], 0⟩, ⟨⟨[], 1, 0⟩, SendBuf.defaultBuf⟩) ∧
    (⟨[5], 0⟩ : RangeBuf).off = 0 ∧
    ((Stream.new.push_send [6]).2.pop_send 5) =
      some (⟨[6], 0⟩, ⟨RecvBuf.defaultBuf, ⟨[], 1, 0⟩⟩) ∧
    (⟨[6], 0⟩ : RangeBuf).off = 0 :=
  ⟨by decide,
    pop_results_have_zero_off.1 (Stream.new.push_recv ⟨[5], 0⟩) ⟨[5], 0⟩
      ⟨⟨[], 1, 0⟩, SendBuf.defaultBuf⟩ (by decide),
    by decide,
    pop_results_have_zero_off.2 (Stream.new.push_send [6]).2 5 ⟨[6], 0⟩
      ⟨RecvBuf.defaultBuf, ⟨[], 1, 0⟩⟩ (by decide)⟩

/-- Claim C6, counterexample: after pushing a zero-length chunk at offset
0, can_read() is true (the heap minimum's offset equals next_offset) but
an immediate pop_recv() returns an empty result, so the claimed
equivalence fails on a reachable state with a zero-length chunk. -/
theorem can_read_true_pop_empty_on_zero_len_chunk :
    (Stream.new.push_recv ⟨[], 0⟩).can_read = true ∧
    (Stream.new.push_recv ⟨[], 0⟩).pop_recv = some (RangeBuf.defaultBuf, Stream.new) ∧
    RangeBuf.defaultBuf.data = [] := by
  decide

/-- Claim C6, amended: in every state whose pending receive chunks are
non-empty and satisfy the reachable-state bound end ≤ next_offset + len,
can_read() is true iff an immediate pop_recv() returns a non-empty
result; and in every state, can_write() is true iff unsent_len > 0. -/
theorem can_read_iff_pop_nonempty (st : Stream)
    (hend : ∀ c ∈ st.recv.data, specEnd c ≤ st.recv.off + st.recv.len)
    (hne : ∀ c ∈ st.recv.data, c.data ≠ []) :
    (st.can_read = true ↔
      ∃ out st', st.pop_recv = some (out, st') ∧ out.data ≠ []) ∧
    (st.can_write = true ↔ 0 < st.send.len) := by
  constructor
  · constructor
    · intro hrdy
      obtain ⟨s', hs⟩ :=
        recvPopLoop_success st.recv.data st.recv.off st.recv.len RangeBuf.defaultBuf hend
      have hpop : st.recv.pop =
          some ({ data := chainFlat st.recv.data st.recv.off, off := 0 }, s') := by
        simpa [RecvBuf.pop, RangeBuf.defaultBuf] using hs
      refine ⟨{ data := chainFlat st.recv.data st.recv.off, off := 0 },
        { st with recv := s' }, ?_, ?_⟩
      · simp [Stream.pop_recv, hpop]
      · cases hd : st.recv.data with
        | nil =>
          exfalso
          simp [Stream.can_read, ready_of_data_nil hd] at hrdy
        | cons b rest =>
          have hb : b.off = st.recv.off := by
            have := ready_of_data_cons hd
            rw [Stream.can_read, this] at hrdy
            simpa using hrdy
          have hbne : b.data ≠ [] := hne b (by rw [hd]; exact List.mem_cons_self b rest)
          simp only [hd, chainFlat_cons_pos hb]
          intro hcontra
          exact hbne (List.append_eq_nil.mp hcontra).1
    · rintro ⟨out, st', hpop, hne'⟩
      by_contra hnot
      have hrdy : st.recv.ready = false := by
        simpa [Stream.can_read] using hnot
      have := recvPop_of_not_ready hrdy
      rw [Stream.pop_recv, this] at hpop
      simp [RangeBuf.defaultBuf] at hpop
      exact hne' (by rw [← hpop.1])
  · simp [Stream.can_write, SendBuf.ready]

/-- Witness for C6 at a concrete stream holding one non-empty in-order
chunk: both hypotheses hold and the equivalences follow. -/
theorem can_read_iff_pop_nonempty_witness :
    ((∀ c ∈ (Stream.new.push_recv ⟨[9], 0⟩).recv.data,
        specEnd c ≤ (Stream.new.push_recv ⟨[9], 0⟩).recv.off +
          (Stream.new.push_recv ⟨[9], 0⟩).recv.len) ∧
      (∀ c ∈ (Stream.new.push_recv ⟨[9], 0⟩).recv.data, c.data ≠ [])) ∧
    (((Stream.new.push_recv ⟨[9], 0⟩).can_read = true ↔
      ∃ out st', (Stream.new.push_recv ⟨[9], 0⟩).pop_recv = some (out, st') ∧
        out.data ≠ []) ∧
    ((Stream.new.push_recv ⟨[9], 0⟩).can_write = true ↔
      0 < (Stream.new.push_recv ⟨[9], 0⟩).send.len)) :=
  ⟨⟨by decide, by decide⟩,
    can_read_iff_pop_nonempty (Stream.new.push_recv ⟨[9], 0⟩) (by decide) (by decide)⟩

/-- Claim C7: once the receive heap contains a chunk whose offset lies
strictly below next_offset, every later sequence of pushes and pops keeps
that chunk in the heap, never advances next_offset, leaves ready() false,
and makes every pop return an empty result - the buffer never delivers a
byte again. -/
theorem stale_chunk_blocks_forever (s : RecvBuf) (c : RangeBuf) (ops : List RecvOp)
    (hsort : s.data.Pairwise offLE) (hc : c ∈ s.data) (hlt : c.off < s.off) :
    c ∈ (recvRun s ops).data ∧ (recvRun s ops).off = s.off ∧
    (recvRun s ops).ready = false ∧
    (recvRun s ops).pop = some (RangeBuf.defaultBuf, recvRun s ops) := by
  obtain ⟨g1, g2, g3⟩ := recvRun_stale_inv c ops s hsort hc hlt
  have hrdy : (recvRun s ops).ready = false :=
    stale_not_ready g1 g2 (by rw [g3]; exact hlt)
  exact ⟨g2, g3, hrdy, recvPop_of_not_ready hrdy⟩

/-- Witness for C7: a buffer at next_offset 5 holding a stale chunk at
offset 0, run through a further push and a pop. -/
theorem stale_chunk_blocks_forever_witness :
    ((⟨[⟨[1], 0⟩], 5, 1⟩ : RecvBuf).data.Pairwise offLE ∧
      (⟨[1], 0⟩ : RangeBuf) ∈ (⟨[⟨[1], 0⟩], 5, 1⟩ : RecvBuf).data ∧
      (⟨[1], 0⟩ : RangeBuf).off < (⟨[⟨[1], 0⟩], 5, 1⟩ : RecvBuf).off) ∧
    ((⟨[1], 0⟩ : RangeBuf) ∈
        (recvRun ⟨[⟨[1], 0⟩], 5, 1⟩ [RecvOp.push ⟨[2], 5⟩, RecvOp.pop]).data ∧
      (recvRun ⟨[⟨[1], 0⟩], 5, 1⟩ [RecvOp.push ⟨[2], 5⟩, RecvOp.pop]).off = 5 ∧
      (recvRun ⟨[⟨[1], 0⟩], 5, 1⟩ [RecvOp.push ⟨[2], 5⟩, RecvOp.pop]).ready = false ∧
      (recvRun ⟨[⟨[1], 0⟩], 5, 1⟩ [RecvOp.push ⟨[2], 5⟩, RecvOp.pop]).pop =
        some (RangeBuf.defaultBuf,
          recvRun ⟨[⟨[1], 0⟩], 5, 1⟩ [RecvOp.push ⟨[2], 5⟩, RecvOp.pop])) :=
  ⟨⟨by decide, by decide, by decide⟩,
    stale_chunk_blocks_forever ⟨[⟨[1], 0⟩], 5, 1⟩ ⟨[1], 0⟩
      [RecvOp.push ⟨[2], 5⟩, RecvOp.pop] (by decide) (by decide) (by decide)⟩

/-- Claim C8: for any stream-table contents (any entry order, distinct
ids), exhausting the readable-streams iterator yields exactly the set of
ids whose stream satisfies can_read() at iteration time, each id exactly
once. -/
theorem readable_iterator_exactly_readable (l : List (Nat × Stream))
    (hnd : (l.map Prod.fst).Nodup) :
    (∀ k, k ∈ collectIds l ↔ ∃ st, (k, st) ∈ l ∧ st.can_read = true) ∧
    (collectIds l).Nodup := by
  constructor
  · intro k
    rw [collectIds_eq_filter]
    simp only [List.mem_map, List.mem_filter]
    constructor
    · rintro ⟨⟨k', st⟩, ⟨hmem, hread⟩, rfl⟩
      exact ⟨st, hmem, hread⟩
    · rintro ⟨st, hmem, hread⟩
      exact ⟨(k, st), ⟨hmem, hread⟩, rfl⟩
  · rw [collectIds_eq_filter]
    have hsub : ((l.filter (fun p => p.2.can_read)).map Prod.fst).Sublist
        (l.map Prod.fst) := (List.filter_sublist l).map Prod.fst
    exact hnd.sublist hsub

/-- Witness for C8: a two-entry table with one readable stream (a pending
in-order chunk) and one non-readable stream; the iterator yields exactly
the readable id. -/
theorem readable_iterator_exactly_readable_witness :
    (([(1, Stream.new.push_recv ⟨[3], 0⟩), (2, Stream.new)].map Prod.fst).Nodup) ∧
    ((∀ k, k ∈ collectIds [(1, Stream.new.push_recv ⟨[3], 0⟩), (2, Stream.new)] ↔
      ∃ st, (k, st) ∈ [(1, Stream.new.push_recv ⟨[3], 0⟩), (2, Stream.new)] ∧
        st.can_read = true) ∧
    (collectIds [(1, Stream.new.push_recv ⟨[3], 0⟩), (2, Stream.new)]).Nodup) :=
  ⟨by decide,
    readable_iterator_exactly_readable
      [(1, Stream.new.push_recv ⟨[3], 0⟩), (2, Stream.new)] (by decide)⟩

/-- Claim C5, counterexample with overlapping pushes: push [0,2) then the
overlapping [1,3) into a fresh buffer.  The maximal contiguous prefix has
run = 3, but pop returns only the 2 bytes of the first chunk and stops
(the second chunk's offset 1 no longer matches next_offset 2), so the
result is not the bytes of [next_offset, next_offset + run). -/
theorem recv_pop_overlap_loses_bytes :
    (List.foldl RecvBuf.push RecvBuf.defaultBuf
        [⟨[10, 11], 0⟩, ⟨[12, 13], 1⟩]).pop =
      some (⟨[10, 11], 0⟩, ⟨[⟨[12, 13], 1⟩], 2, 1⟩) ∧
    specRun [⟨[10, 11], 0⟩, ⟨[12, 13], 1⟩] = 3 ∧
    (⟨[10, 11], 0⟩ : RangeBuf).data.length ≠
      specRun [⟨[10, 11], 0⟩, ⟨[12, 13], 1⟩] := by
  decide

/-- Claim C5, amended: for any sequence of pushes of non-empty, pairwise
disjoint chunks into a fresh buffer, in any order, a single pop returns
exactly the bytes of the offsets of the maximal contiguous prefix
[0, run), in strictly increasing offset order (the i-th returned byte is
the byte stored at offset i); and when every chunk offset is greater than
next_offset (a gap at the front), the pop returns an empty result. -/
theorem recv_pop_contiguous_run (cs : List RangeBuf)
    (hsep : cs.Pairwise sep) (hne : ∀ c ∈ cs, c.data ≠ []) :
    ∃ out s',
      (List.foldl RecvBuf.push RecvBuf.defaultBuf cs).pop = some (out, s') ∧
      out.data.length = specRun cs ∧
      (∀ i, i < out.data.length → out.data[i]? = specByteAt cs i) ∧
      ((∀ c ∈ cs, 0 < c.off) → out.data = []) := by
  have hoff : (List.foldl RecvBuf.push RecvBuf.defaultBuf cs).off = 0 :=
    recv_foldl_off cs RecvBuf.defaultBuf
  have hperm : (List.foldl RecvBuf.push RecvBuf.defaultBuf cs).data.Perm cs := by
    have := recv_foldl_data_perm cs RecvBuf.defaultBuf
    simpa [RecvBuf.defaultBuf] using this
  have hsort : (List.foldl RecvBuf.push RecvBuf.defaultBuf cs).data.Pairwise offLE :=
    recv_foldl_sorted cs RecvBuf.defaultBuf (by simp [RecvBuf.defaultBuf])
  have hend : ∀ c ∈ (List.foldl RecvBuf.push RecvBuf.defaultBuf cs).data,
      specEnd c ≤ (List.foldl RecvBuf.push RecvBuf.defaultBuf cs).len :=
    recv_foldl_end_le cs RecvBuf.defaultBuf (by simp [RecvBuf.defaultBuf])
  have hsepS : (List.foldl RecvBuf.push RecvBuf.defaultBuf cs).data.Pairwise sep :=
    (hperm.pairwise_iff (fun {x y} h => sep_symmetric h)).mpr hsep
  have hneS : ∀ c ∈ (List.foldl RecvBuf.push RecvBuf.defaultBuf cs).data,
      c.data ≠ [] := fun c hc => hne c (hperm.mem_iff.mp hc)
  have hbound : ∀ c ∈ (List.foldl RecvBuf.push RecvBuf.defaultBuf cs).data,
      specEnd c ≤ (List.foldl RecvBuf.push RecvBuf.defaultBuf cs).off +
        (List.foldl RecvBuf.push RecvBuf.defaultBuf cs).len := by
    intro c hc
    rw [hoff]
    simpa using hend c hc
  obtain ⟨s', hs⟩ := recvPopLoop_success
    (List.foldl RecvBuf.push RecvBuf.defaultBuf cs).data
    (List.foldl RecvBuf.push RecvBuf.defaultBuf cs).off
    (List.foldl RecvBuf.push RecvBuf.defaultBuf cs).len RangeBuf.defaultBuf hbound
  rw [hoff] at hs
  obtain ⟨m1, m2, m3⟩ := chain_matches_spec
    (List.foldl RecvBuf.push RecvBuf.defaultBuf cs).data 0 hsort hsepS hneS
    (fun c _ => Nat.zero_le c.off)
  have hcov : ∀ x, coversB (List.foldl RecvBuf.push RecvBuf.defaultBuf cs).data x =
      coversB cs x := fun x => coversB_eq_of_perm hperm
  have hbyte : ∀ x, specByteAt (List.foldl RecvBuf.push RecvBuf.defaultBuf cs).data x =
      specByteAt cs x := fun x => specByteAt_eq_of_perm hsepS hperm
  have hrun : specRun cs =
      (chainFlat (List.foldl RecvBuf.push RecvBuf.defaultBuf cs).data 0).length := by
    apply specRunFuel_eq
    · rcases Nat.eq_zero_or_pos
        (chainFlat (List.foldl RecvBuf.push RecvBuf.defaultBuf cs).data 0).length
        with h0 | hpos
      · omega
      · have hc1 := m2 ((chainFlat (List.foldl RecvBuf.push RecvBuf.defaultBuf cs).data
            0).length - 1) (by omega)
        rw [hcov] at hc1
        have := lt_maxEnd_of_covers (by simpa using hc1)
        omega
    · intro i hi
      have := m2 i hi
      rw [hcov] at this
      simpa using this
    · have := m3
      rw [hcov] at this
      simpa using this
  refine ⟨⟨chainFlat (List.foldl RecvBuf.push RecvBuf.defaultBuf cs).data 0, 0⟩, s',
    ?_, ?_, ?_, ?_⟩
  · show recvPopLoop _ _ _ _ = _
    rw [hoff]
    simpa [RangeBuf.defaultBuf] using hs
  · exact hrun.symm
  · intro i hi
    have := m1 i hi
    rw [hbyte] at this
    simpa using this
  · intro hall
    have h0 : coversB cs 0 = false := by
      cases hb0 : coversB cs 0 with
      | false => rfl
      | true =>
        exfalso
        obtain ⟨c, hc, h1, _⟩ := coversB_true_iff.mp hb0
        have := hall c hc
        omega
    have hL0 : (chainFlat (List.foldl RecvBuf.push RecvBuf.defaultBuf cs).data 0).length
        = 0 := by
      by_contra hL
      have := m2 0 (by omega)
      rw [hcov] at this
      simp only [Nat.add_zero] at this
      rw [h0] at this
      cases this
    exact List.eq_nil_of_length_eq_zero hL0

/-- Witness for C5 at a concrete gap input: a single non-empty chunk at
offset 1 with next_offset 0; the hypotheses hold and the theorem applies
(here run = 0, so the pop is empty). -/
theorem recv_pop_contiguous_run_witness :
    (([⟨[7], 1⟩] : List RangeBuf).Pairwise sep ∧
      (∀ c ∈ ([⟨[7], 1⟩] : List RangeBuf), c.data ≠ [])) ∧
    (∃ out s',
      (List.foldl RecvBuf.push RecvBuf.defaultBuf [⟨[7], 1⟩]).pop = some (out, s') ∧
      out.data.length = specRun [⟨[7], 1⟩] ∧
      (∀ i, i < out.data.length → out.data[i]? = specByteAt [⟨[7], 1⟩] i) ∧
      ((∀ c ∈ ([⟨[7], 1⟩] : List RangeBuf), 0 < c.off) → out.data = [])) :=
  ⟨⟨by decide, by decide⟩,
    recv_pop_contiguous_run [⟨[7], 1⟩] (by decide) (by decide)⟩

end Quiche
